import Mathlib

/-!
Verification of the management-accounting statement ingestion and
classification pipeline (`api/app` in the repository).  The Python code is
embedded shallowly: Python strings are handled as `List Char` (wrapped into
`String` at the interface), Python `float` monetary values are modelled as
rationals, database tables are Lean lists inside a `DB` record, and the
Celery worker is a state-passing function.  Every embedded definition
carries a comment naming the Python function it mirrors.
-/

namespace MgmtAcct

/-! ### Python string primitives

`str.strip`, `str.split`, `str.lower`, `int(...)`, `float(...)` and the
`re` character classes used by the parser, restricted to the ASCII
repertoire the statement data lives in. -/

/-- ASCII whitespace: what `str.strip()` removes and what `\s` matches in
the parser's `re` patterns, for ASCII input. -/
def isPyWs (c : Char) : Bool :=
  c = ' ' || c = '\t' || c = '\n' || c = '\r' || c = '\x0c' || c = '\x0b'

/-- ASCII decimal digit. -/
def isDigitC (c : Char) : Bool :=
  '0' ≤ c && c ≤ '9'

/-- ASCII uppercase letter, the `[A-Z]` class of the parser's regexes. -/
def isUpperC (c : Char) : Bool :=
  'A' ≤ c && c ≤ 'Z'

/-- `str.lower` on an ASCII character. -/
def pyLowerC (c : Char) : Char :=
  if isUpperC c then Char.ofNat (c.toNat + 32) else c

/-- `str.lower` on a whole string (as a character list). -/
def pyLowerL (l : List Char) : List Char :=
  l.map pyLowerC

/-- `str.strip()`: drop leading and trailing whitespace. -/
def stripWsL (l : List Char) : List Char :=
  ((l.dropWhile isPyWs).reverse.dropWhile isPyWs).reverse

/-- `str.split(sep)` for a one-character separator, with Python's
semantics: `"".split(sep) = [""]`, empty fields are kept. -/
def splitOnC (sep : Char) : List Char → List (List Char)
  | [] => [[]]
  | c :: t =>
    let r := splitOnC sep t
    if c = sep then [] :: r
    else
      match r with
      | w :: ws => (c :: w) :: ws
      | [] => [[c]]

/-- Does `l` start with `p`?  Used to implement Python's `in` on strings. -/
def listStarts : List Char → List Char → Bool
  | _, [] => true
  | [], _ :: _ => false
  | c :: t, d :: u => c = d && listStarts t u

/-- Python's `needle in hay` substring test. -/
def listHas (hay needle : List Char) : Bool :=
  match hay with
  | [] => needle.isEmpty
  | _ :: t => listStarts hay needle || listHas t needle

/-- Value of a list of decimal digit characters. -/
def digitsToNat (l : List Char) : Nat :=
  l.foldl (fun a c => 10 * a + (c.toNat - 48)) 0

/-- Digit-string core of Python `int(...)`: nonempty all-digit input. -/
def pyIntCore (l : List Char) : Option Int :=
  if l ≠ [] && l.all isDigitC then some (digitsToNat l) else none

/-- Python `int(s)` for ASCII input: surrounding whitespace is stripped and
a single leading sign is honoured.  (Underscore digit grouping, an exotic
corner of `int`, is outside the data this parser ever sees.) -/
def pyIntL (l : List Char) : Option Int :=
  let s := stripWsL l
  if s.head? = some '+' then pyIntCore s.tail
  else if s.head? = some '-' then (pyIntCore s.tail).map (fun n => -n)
  else pyIntCore s

/-- Unsigned decimal core of Python `float(s)`: `digits`, `digits.`,
`.digits` or `digits.digits`, valued as a rational. -/
def pyFloatCore (l : List Char) : Option ℚ :=
  let ip := l.takeWhile isDigitC
  match l.dropWhile isDigitC with
  | [] => if ip = [] then none else some (digitsToNat ip)
  | '.' :: fp =>
    if fp.all isDigitC && (ip ≠ [] || fp ≠ []) then
      some ((digitsToNat ip : ℚ) + (digitsToNat fp : ℚ) / ((10 : ℚ) ^ fp.length))
    else none
  | _ => none

/-- Python `float(s)` for plain decimal ASCII input: strips surrounding
whitespace, honours one leading sign.  (Exponents, `inf`/`nan` and
underscore grouping never occur in statement amounts.) -/
def pyFloatL (l : List Char) : Option ℚ :=
  match stripWsL l with
  | '+' :: t => pyFloatCore t
  | '-' :: t => (pyFloatCore t).map (fun q => -q)
  | t => pyFloatCore t

/-! ### Calendar dates

`datetime.date` values and the validity rules `datetime(...)` enforces. -/

/-- A `datetime.date` value. -/
structure PyDate where
  year : Int
  month : Int
  day : Int
deriving Repr, DecidableEq

/-- Gregorian leap year, as in `calendar`/`datetime`. -/
def isLeapYear (y : Int) : Bool :=
  y % 4 = 0 && (y % 100 ≠ 0 || y % 400 = 0)

/-- Days in a month, as enforced by the `datetime` constructor. -/
def daysInMonth (y m : Int) : Int :=
  if m = 2 then (if isLeapYear y then 29 else 28)
  else if m = 4 || m = 6 || m = 9 || m = 11 then 30
  else 31

/-- Argument validity of `datetime(year, month, day)`:
`MINYEAR ≤ year ≤ MAXYEAR`, month in range, day fits the month. -/
def pyDatetimeValid (y m d : Int) : Bool :=
  1 ≤ y && y ≤ 9999 && 1 ≤ m && m ≤ 12 && 1 ≤ d && d ≤ daysInMonth y m

/-- `datetime(y, m, d).date()` wrapped in the parser's `try/except`:
an invalid calendar date becomes `none` instead of raising. -/
def makeDate (y m d : Int) : Option PyDate :=
  if pyDatetimeValid y m d then some ⟨y, m, d⟩ else none

/-! ### `parsers/maybank.py`: `_infer_date` -/

/-- `maybank._infer_date(day_month, stmt_year, stmt_month)` on character
lists.  `day, month = map(int, day_month.split("/"))` succeeds exactly when
the split yields two int-parsable fields (any other shape raises and is
caught, giving `None`); the year rolls back by one when the token's month
exceeds the statement month; an invalid calendar date yields `None`. -/
def inferDateL (tok : List Char) (sy sm : Int) : Option PyDate :=
  match (splitOnC '/' tok).map pyIntL with
  | [some day, some month] =>
    let year := if month > sm then sy - 1 else sy
    makeDate year month day
  | _ => none

/-- `maybank._infer_date` at the `String` interface. -/
def infer_date (tok : String) (sy sm : Int) : Option PyDate :=
  inferDateL tok.toList sy sm

/-- The character for decimal digit `k`. -/
def digitChar (k : Nat) : Char :=
  Char.ofNat (48 + k)

/-- A two-digit zero-padded rendering (`DD` or `MM`) of `n ≤ 99`. -/
def twoDigitL (n : Nat) : List Char :=
  [digitChar (n / 10 % 10), digitChar (n % 10)]

/-! ### `parsers/maybank.py`: `_normalise_description` -/

/-- `re.sub(r"\s+", " ", raw)`: each maximal whitespace run becomes one
space. -/
def collapseWsL : List Char → List Char
  | [] => []
  | [c] => [if isPyWs c then ' ' else c]
  | a :: b :: t =>
    if isPyWs a && isPyWs b then collapseWsL (b :: t)
    else (if isPyWs a then ' ' else a) :: collapseWsL (b :: t)

/-- `re.sub(r"\s+[A-Z]{2}$", "", cleaned)`: when the string ends in
whitespace followed by exactly two uppercase letters, that whitespace run
and the two letters are removed. -/
def dropCountryCodeL (l : List Char) : List Char :=
  match l.reverse with
  | c1 :: c2 :: c3 :: rest =>
    if isUpperC c1 && isUpperC c2 && isPyWs c3 then
      ((c3 :: rest).dropWhile isPyWs).reverse
    else l
  | _ => l

/-- `maybank._normalise_description(desc)` on character lists: returns
`(cleaned, raw)` where `raw = desc.strip()` and `cleaned` is `raw` with
whitespace runs collapsed and a trailing two-uppercase-letter country code
removed. -/
def normaliseDescriptionL (desc : List Char) : List Char × List Char :=
  let raw := stripWsL desc
  let cleaned := collapseWsL raw
  (dropCountryCodeL cleaned, raw)

/-- `maybank._normalise_description` at the `String` interface. -/
def normalise_description (desc : String) : String × String :=
  let p := normaliseDescriptionL desc.toList
  (⟨p.1⟩, ⟨p.2⟩)

/-! Word-level reference formulation used to state what the description
normaliser computes, independently of the regex-shaped recursions above:
the whitespace-separated words of the input, re-joined by single spaces,
with a final two-uppercase-letter word dropped when it is preceded by at
least one other word. -/

/-- The maximal non-whitespace runs of a string, in order (like
`str.split()` with no argument). -/
def wordsOf : List Char → List (List Char)
  | [] => []
  | c :: t =>
    if isPyWs c then wordsOf t
    else
      match t with
      | [] => [[c]]
      | d :: _ =>
        if isPyWs d then [c] :: wordsOf t
        else
          match wordsOf t with
          | w :: ws => (c :: w) :: ws
          | [] => [[c]]

/-- Join words with single spaces. -/
def joinWords : List (List Char) → List Char
  | [] => []
  | [w] => w
  | w :: ws => w ++ ' ' :: joinWords ws

/-- Is a word exactly two uppercase letters (a country-code token)? -/
def isCountryCodeWord (w : List Char) : Bool :=
  match w with
  | [a, b] => isUpperC a && isUpperC b
  | _ => false

/-- Drop a final country-code word when at least one word precedes it. -/
def dropLastCountryWord (ws : List (List Char)) : List (List Char) :=
  match ws.reverse with
  | w :: (v :: rest) => if isCountryCodeWord w then (v :: rest).reverse else ws
  | _ => ws

/-! ### `parsers/maybank.py`: `_parse_amount` -/

/-- Is `c` one of the characters of the class `[RM\$]` with
`re.IGNORECASE`? -/
def isCurrencyChar (c : Char) : Bool :=
  c = 'R' || c = 'r' || c = 'M' || c = 'm' || c = '$'

/-- `re.sub(r"[RM\$]\s*", "", s, flags=re.IGNORECASE)`: every occurrence of
an `R`, `M` or `$` character is removed together with the whitespace run
immediately following it.  The Boolean argument records whether the
previous character was removed, so that a following whitespace run is
still being consumed. -/
def removeCurrencyGo : Bool → List Char → List Char
  | _, [] => []
  | dropping, c :: t =>
    if dropping && isPyWs c then removeCurrencyGo true t
    else if isCurrencyChar c then removeCurrencyGo true t
    else c :: removeCurrencyGo false t

/-- Entry point of the currency-symbol removal. -/
def removeCurrencyL (l : List Char) : List Char :=
  removeCurrencyGo false l

/-- `re.sub(r"CR$", "", s, flags=re.IGNORECASE)`: remove one trailing
`CR` (case-insensitive). -/
def removeTrailingCRL (l : List Char) : List Char :=
  match l.reverse with
  | r :: c :: rest =>
    if (r = 'R' || r = 'r') && (c = 'C' || c = 'c') then rest.reverse else l
  | _ => l

/-- `maybank._parse_amount(amount_str, is_credit)` on character lists.
Order of operations as in the source: strip and drop commas; remove
currency symbols (`[RM\$]\s*`); detect a parenthesised credit; remove a
trailing `CR`; strip; honour leading minus signs (`lstrip("-")` removes
all of them); parse as `float`; a credit forces the sign negative. -/
def parseAmountL (amount : List Char) (is_credit : Bool) : Option ℚ :=
  let s0 := (stripWsL amount).filter (fun c => c ≠ ',')
  let s1 := removeCurrencyL s0
  let credit0 := is_credit || s1.getLast? = some ')'
  let pc := s1.head? = some '(' && s1.getLast? = some ')'
  let s2 := if pc then (s1.drop 1).dropLast else s1
  let credit := credit0 || pc
  let s3 := stripWsL (removeTrailingCRL s2)
  let neg := s3.head? = some '-'
  let s4 := s3.dropWhile (fun c => c = '-')
  match pyFloatL s4 with
  | some v => some (if credit then -v else if neg then -v else v)
  | none => none

/-- `maybank._parse_amount` at the `String` interface. -/
def parse_amount (amount : String) (is_credit : Bool) : Option ℚ :=
  parseAmountL amount.toList is_credit

/-! ### Data model (`app/models.py`, migration `0001_init`)

Amounts are `Numeric(12, 2)` in the store and `float` in the parser; both
are modelled as rationals.  Nullable columns are `Option`. -/

/-- A `models.Rule` row. -/
structure Rule where
  id : Int
  pattern : String
  priority : Int
  category_id : Option Int
  subcategory : Option String
  status : String
deriving Repr, DecidableEq

/-- A `models.Statement` row. -/
structure Statement where
  id : Int
  filename : String
  status : String
  error_message : Option String
deriving Repr, DecidableEq

/-- A value held under a date key of a parser row dictionary: the Maybank
parser stores ISO strings, the generic fallback stores `date` objects. -/
inductive DateVal where
  | str (s : String)
  | dt (d : PyDate)
deriving Repr, DecidableEq

/-- A parser row dictionary, restricted to the keys `worker.queue_parse`
reads.  A key absent from the dictionary is `none` (`r.get(k)` gives
`None`). -/
structure Row where
  transaction_date : Option DateVal := none
  txn_date : Option DateVal := none
  posting_date : Option DateVal := none
  description : Option String := none
  amount : Option ℚ := none
  category : Option String := none
  subcategory : Option String := none
deriving Repr, DecidableEq

/-- A `models.Transaction` row.  `raw_row_json` keeps the originating
parser row, as in the source. -/
structure Transaction where
  id : Int
  statement_id : Int
  txn_date : Option PyDate
  post_date : Option PyDate
  description : String
  amount : ℚ
  category_id : Option Int
  subcategory : Option String
  raw_row_json : Row
deriving Repr, DecidableEq

/-- The persistent state: the four tables touched by the worker plus the
id counters the store assigns from. -/
structure DB where
  statements : List Statement
  transactions : List Transaction
  rules : List Rule
  categories : List (Int × String)
  nextCatId : Int := 1
  nextTxnId : Int := 1
deriving Repr, DecidableEq

/-! ### Rule engine (`app/repo.py`) -/

/-- The `NameError` raised by `apply_rules`: its sorting key
`lambda x: (r.priority, r.id)` closes over the loop variable `r`, which is
still unbound when `sorted` evaluates the key. -/
def nameErrorMsg : String :=
  "NameError: free variable r referenced before assignment in apply_rules sort key"

/-- `repo.apply_rules(db, tx, rules)`, faithfully.  The call evaluates
`sorted(rules, key=lambda x: (r.priority, r.id))` first; `sorted` applies
the key to every element before the `for` loop binds `r`, so any nonempty
rule list raises `NameError` before a single rule is examined and before
any field of `tx` is assigned.  The result is the state of `tx` after the
call together with the raised exception, if any. -/
def apply_rules (tx : Transaction) (rules : List Rule) : Transaction × Option String :=
  match rules with
  | [] => (tx, none)
  | _ :: _ => (tx, some nameErrorMsg)

/-- Stable insertion into a sorted list: `a` goes after every element `b`
with `le b a`.  Folding this over a list from the left is a stable sort,
matching Python's `sorted`. -/
def insSorted (le : α → α → Bool) (a : α) : List α → List α
  | [] => [a]
  | b :: t => if le b a then b :: insSorted le a t else a :: b :: t

/-- A stable sort with Boolean comparison, modelling Python's `sorted`. -/
def pySorted (le : α → α → Bool) (l : List α) : List α :=
  l.foldl (fun acc a => insSorted le a acc) []

/-- The ordering the defective key `lambda x: (r.priority, r.id)` was
meant to compute, as the source comments and `tests/test_repo.py` pin it:
priority ascending, then id ascending. -/
def ruleLE (a b : Rule) : Bool :=
  a.priority < b.priority || (a.priority = b.priority && a.id ≤ b.id)

/-- One pass of the loop body of `apply_rules` over an already-sorted rule
list: skip rules whose status is not `active`; the first rule whose
lowered pattern occurs in the lowered description assigns its category and
subcategory and stops. -/
def scanRules (tx : Transaction) : List Rule → Transaction
  | [] => tx
  | r :: rest =>
    if r.status ≠ "active" then scanRules tx rest
    else if listHas (pyLowerL tx.description.toList) (pyLowerL r.pattern.toList) then
      { tx with category_id := r.category_id, subcategory := r.subcategory }
    else scanRules tx rest

/-- `repo.apply_rules` as its own comments and `tests/test_repo.py`
document it — the sorting key read as `(x.priority, x.id)`.  This is the
reference point for what the defective lambda was meant to compute. -/
def apply_rules_intended (tx : Transaction) (rules : List Rule) : Transaction :=
  scanRules tx (pySorted ruleLE rules)

/-- The transaction loop of `repo.reapply_all`: apply the (defective)
`apply_rules` to each transaction in turn; an exception propagates
immediately, leaving the remaining transactions untouched. -/
def reapplyAllGo (rules : List Rule) : List Transaction → List Transaction × Option String
  | [] => ([], none)
  | t :: ts =>
    match apply_rules t rules with
    | (t', some e) => (t' :: ts, some e)
    | (t', none) =>
      let p := reapplyAllGo rules ts
      (t' :: p.1, p.2)

/-- `repo.reapply_all(db)`: load every rule and every transaction, apply
`apply_rules` to each transaction, commit.  The second component is the
exception escaping the call, if any. -/
def reapply_all (db : DB) : DB × Option String :=
  let p := reapplyAllGo db.rules db.transactions
  ({ db with transactions := p.1 }, p.2)

/-! ### Ingestion pipeline (`app/worker.py`, `queue_parse`) -/

/-- `db.get(models.Statement, statement_id)`. -/
def findStmt (db : DB) (sid : Int) : Option Statement :=
  db.statements.find? (fun s => s.id = sid)

/-- Set the status and error message of statement `sid` and commit
(`stmt.status = ...; stmt.error_message = ...; db.add(stmt); db.commit()`). -/
def setStmt (db : DB) (sid : Int) (st : String) (err : Option String) : DB :=
  { db with
    statements := db.statements.map (fun s =>
      if s.id = sid then { s with status := st, error_message := err } else s) }

/-- `datetime.fromisoformat(s).date()` on the `YYYY-MM-DD` strings the
Maybank parser emits, under the worker's `try/except`: any other shape or
an invalid date gives `None`. -/
def isoParseD (s : String) : Option PyDate :=
  match splitOnC '-' s.toList with
  | [ys, ms, ds] =>
    if ys.length = 4 && ms.length = 2 && ds.length = 2
        && ys.all isDigitC && ms.all isDigitC && ds.all isDigitC then
      makeDate (digitsToNat ys) (digitsToNat ms) (digitsToNat ds)
    else none
  | _ => none

/-- Python truthiness of a date-key value (`None` and `""` are falsy). -/
def dateValTruthy : Option DateVal → Bool
  | none => false
  | some (.str s) => s ≠ ""
  | some (.dt _) => true

/-- `a or b` on date-key values. -/
def pyOrDate (a b : Option DateVal) : Option DateVal :=
  if dateValTruthy a then a else b

/-- The worker's date normalisation: a string value is parsed with
`fromisoformat` (`None` on failure), a `date` object passes through,
`None` stays `None`. -/
def coerceDate : Option DateVal → Option PyDate
  | some (.str s) => isoParseD s
  | some (.dt d) => some d
  | none => none

/-- The category resolution of `queue_parse`: when the row carries a
truthy category name, look it up by name and lazily create (and commit) it
when absent.  Returns the updated state and `category_id`. -/
def resolveCat (db : DB) (c : Option String) : DB × Option Int :=
  match c with
  | none => (db, none)
  | some name =>
    if name = "" then (db, none)
    else
      match db.categories.find? (fun p => p.2 = name) with
      | some p => (db, some p.1)
      | none =>
        let cid := db.nextCatId
        ({ db with categories := db.categories ++ [(cid, name)], nextCatId := cid + 1 },
         some cid)

/-- `txn_date = r.get("transaction_date") or r.get("txn_date")`, then the
worker's string/date normalisation. -/
def rowDate (r : Row) : Option PyDate :=
  coerceDate (pyOrDate r.transaction_date r.txn_date)

/-- `desc = (r.get("description") or "").strip()`. -/
def rowDesc (r : Row) : String :=
  ⟨stripWsL (r.description.getD "").toList⟩

/-- The `models.Transaction(...)` the worker constructs for a row. -/
def mkTxn (tid sid : Int) (r : Row) (catId : Option Int) : Transaction :=
  { id := tid
    statement_id := sid
    txn_date := rowDate r
    post_date := coerceDate r.posting_date
    description := rowDesc r
    amount := (r.amount).getD 0
    category_id := catId
    subcategory := r.subcategory
    raw_row_json := r }

/-- The uniqueness index `uq_txn_upsert_guard` on
`(statement_id, txn_date, description, amount)` (migration `0001_init`).
As with every SQL unique index, `NULL` values are distinct: the guard
blocks a new row exactly when an existing row agrees on statement,
description and amount and both transaction dates are non-`NULL` and
equal. -/
def guardBlocks (existing t : Transaction) : Bool :=
  existing.statement_id = t.statement_id
    && existing.description = t.description
    && existing.amount = t.amount
    && match existing.txn_date, t.txn_date with
       | some d1, some d2 => d1 = d2
       | _, _ => false

/-- One iteration of the row loop of `queue_parse`: resolve (and possibly
commit) the category, build the transaction, then `db.add(tx); db.commit()`
inside `try/except` — a `NULL` amount or a uniqueness violation rolls the
row back and ingestion moves on. -/
def processRow (db : DB) (sid : Int) (r : Row) : DB :=
  let p := resolveCat db r.category
  let db1 := p.1
  match r.amount with
  | none => db1
  | some _ =>
    let t := mkTxn db1.nextTxnId sid r p.2
    if db1.transactions.any (fun ex => guardBlocks ex t) then db1
    else { db1 with transactions := db1.transactions ++ [t], nextTxnId := db1.nextTxnId + 1 }

/-- The whole row loop of `queue_parse`. -/
def processRows (db : DB) (sid : Int) (rows : List Row) : DB :=
  rows.foldl (fun d r => processRow d sid r) db

/-- `worker.queue_parse(statement_id, path)`.  The statement is looked up
first; a missing statement returns silently.  `readRes` is the outcome of
`open(path).read()` plus `parse_pdf_bytes` — the only steps before the row
loop that can raise.  After the rows, `reapply_all` runs; an exception
from it (or from reading) reaches the outer handler, which marks the
statement `failed` with the captured message; otherwise the statement is
marked `processed` with its error cleared. -/
def queue_parse (db : DB) (sid : Int) (readRes : Except String (List Row)) : DB :=
  match findStmt db sid with
  | none => db
  | some _ =>
    match readRes with
    | .error e => setStmt db sid "failed" (some e)
    | .ok rows =>
      let db1 := processRows db sid rows
      let p := reapply_all db1
      match p.2 with
      | some e => setStmt p.1 sid "failed" (some e)
      | none => setStmt p.1 sid "processed" none

/-- Follows the spec: `After all rows are attempted, invoke the Rule
Engine over the statement's transactions` — the same loop as
`reapplyAllGo`, restricted to the transactions of the statement being
ingested.  Used only to compare the source pipeline against the scoped
invocation the spec describes. -/
def reapplyStmtGo (rules : List Rule) (sid : Int) :
    List Transaction → List Transaction × Option String
  | [] => ([], none)
  | t :: ts =>
    if t.statement_id = sid then
      match apply_rules t rules with
      | (t', some e) => (t' :: ts, some e)
      | (t', none) =>
        let p := reapplyStmtGo rules sid ts
        (t' :: p.1, p.2)
    else
      let p := reapplyStmtGo rules sid ts
      (t :: p.1, p.2)

/-- Follows the spec: the ingestion pipeline with the Rule Engine invoked
over the ingested statement's transactions only, instead of the
system-wide `reapply_all` the source calls. -/
def queueParseScopedSpec (db : DB) (sid : Int) (readRes : Except String (List Row)) : DB :=
  match findStmt db sid with
  | none => db
  | some _ =>
    match readRes with
    | .error e => setStmt db sid "failed" (some e)
    | .ok rows =>
      let db1 := processRows db sid rows
      let p := reapplyStmtGo db1.rules sid db1.transactions
      let db2 := { db1 with transactions := p.1 }
      match p.2 with
      | some e => setStmt db2 sid "failed" (some e)
      | none => setStmt db2 sid "processed" none

/-! ### Concrete scenarios used by the theorems below -/

/-- The transaction of `tests/test_repo.py`. -/
def coffeeTx : Transaction :=
  { id := 1, statement_id := 1, txn_date := none, post_date := none,
    description := "Coffee shop", amount := 1, category_id := none, subcategory := none,
    raw_row_json := {} }

/-- The three rules of the ordering example: `(pattern "coffee",
priority 2, id 2)`, `(priority 1, id 3)`, `(priority 1, id 1)`, with the
category ids `tests/test_repo.py` gives them. -/
def coffeeRules : List Rule :=
  [ { id := 2, pattern := "coffee", priority := 2, category_id := some 1,
      subcategory := none, status := "active" },
    { id := 3, pattern := "coffee", priority := 1, category_id := some 2,
      subcategory := none, status := "active" },
    { id := 1, pattern := "coffee", priority := 1, category_id := some 3,
      subcategory := none, status := "active" } ]

/-- A store with one rule and one transaction: the smallest state on which
`reapply_all` has work to do. -/
def dbOneRuleOneTx : DB :=
  { statements := [], transactions := [coffeeTx],
    rules := [ { id := 1, pattern := "coffee", priority := 1, category_id := some 3,
                 subcategory := none, status := "active" } ],
    categories := [] }

/-- A freshly uploaded statement being processed. -/
def stmtProcessing : Statement :=
  { id := 1, filename := "a.pdf", status := "processing", error_message := some "old" }

/-- A second, already processed statement. -/
def stmtOther : Statement :=
  { id := 2, filename := "b.pdf", status := "processed", error_message := none }

/-- A transaction belonging to the other statement. -/
def txOther : Transaction :=
  { id := 1, statement_id := 2, txn_date := none, post_date := none,
    description := "COFFEE BEAN KL", amount := 10, category_id := none, subcategory := none,
    raw_row_json := {} }

/-- A store with no rules, holding only the statement being ingested. -/
def dbPlain : DB :=
  { statements := [stmtProcessing], transactions := [], rules := [], categories := [] }

/-- The state for the scoping counterexample: the statement being
ingested, a second statement owning a transaction, and one active rule. -/
def dbTwoStatements : DB :=
  { statements := [stmtProcessing, stmtOther], transactions := [txOther],
    rules := [ { id := 1, pattern := "coffee", priority := 1, category_id := some 3,
                 subcategory := none, status := "active" } ],
    categories := [] }

/-- A parser row with no resolvable transaction date. -/
def rowNoDate : Row :=
  { description := some "X", amount := some 5 }

/-- The same payload with a resolvable ISO transaction date. -/
def rowWithDate : Row :=
  { transaction_date := some (.str "2025-06-30"), description := some "X", amount := some 5 }

/-! ### C1 — rule ordering in `classify` -/

/-- C1: the claim says `classify` filters to active rules, sorts by
`(priority, id)` and picks the first case-insensitive substring match, so
that on the coffee rules the rule with priority 1 and lowest id (category
3) wins.  The code instead raises `NameError` for every nonempty rule
list: the sort key `lambda x: (r.priority, r.id)` closes over the unbound
loop variable `r`.  The second and third conjuncts show that the scan the
source comments and `tests/test_repo.py` describe would indeed pick the
priority-1, id-1 rule. -/
theorem apply_rules_coffee_raises_name_error :
    apply_rules coffeeTx coffeeRules = (coffeeTx, some nameErrorMsg)
      ∧ (apply_rules_intended coffeeTx coffeeRules).category_id = some 3
      ∧ (apply_rules_intended coffeeTx coffeeRules).subcategory = none := by
  refine ⟨rfl, ?_, ?_⟩ <;> decide

/-! ### C3 — amount normalisation -/

unseal Rat.add Rat.mul Rat.inv in
/-- C3: the claim says a trailing `CR` marker in the token makes the value
a credit, with `"9.52CR" → -9.52` and `"3,198.71CR" → -3198.71`.  In the
code the currency-symbol pass `re.sub(r"[RM\$]\s*", ...)` runs first and
deletes the `R` of `CR`, so the later `CR$` removal never fires and the
token fails `float(...)`: both evaluate to no amount.  The explicit-credit
flag, parentheses, plain values, currency symbols, leading minus and
non-numeric rejection behave as claimed. -/
theorem parse_amount_eval :
    parse_amount "30.40" false = some (304/10)
      ∧ parse_amount "9.52CR" false = none
      ∧ parse_amount "3,198.71CR" false = none
      ∧ parse_amount "9.52" true = some (-952/100)
      ∧ parse_amount "3,198.71" true = some (-319871/100)
      ∧ parse_amount "(30.40)" false = some (-304/10)
      ∧ parse_amount "RM 30.40" false = some (304/10)
      ∧ parse_amount "-5.25" false = some (-525/100)
      ∧ parse_amount "abc" false = none := by
  refine ⟨?_, ?_, ?_, ?_, ?_, ?_, ?_, ?_, ?_⟩ <;> decide

/-! ### C5 — `reapply_all` idempotence -/

/-- C5: the claim says `reapply_all` run twice over an unchanged rule and
transaction set yields identical assignments.  With at least one rule and
one transaction the call never completes: the first `apply_rules` raises
the sort-key `NameError`, the exception escapes `reapply_all`, and no
assignment is produced on either run. -/
theorem reapply_all_raises_name_error :
    reapply_all dbOneRuleOneTx = (dbOneRuleOneTx, some nameErrorMsg) := rfl

/-! ### C10 — ingestion with an unknown statement id -/

/-- C10: `queue_parse` looks the statement up first and returns silently
when it is missing, before reading the file: the state is untouched — no
transaction or category is created, no status or error message changes. -/
theorem queue_parse_missing_statement_noop (db : DB) (sid : Int)
    (res : Except String (List Row)) (h : findStmt db sid = none) :
    queue_parse db sid res = db := by
  simp [queue_parse, h]

/-- Witness for C10 at a concrete state: statement 7 does not exist. -/
theorem queue_parse_missing_statement_noop_witness :
    queue_parse dbPlain 7 (.error "io error") = dbPlain :=
  queue_parse_missing_statement_noop dbPlain 7 (.error "io error") (by decide)

/-! ### C2 — date inference -/

/-- Decimal digit characters are digits and nothing else relevant. -/
theorem digitChar_props (k : Nat) (h : k ≤ 9) :
    isDigitC (digitChar k) = true ∧ isPyWs (digitChar k) = false
      ∧ digitChar k ≠ '/' ∧ digitChar k ≠ '+' ∧ digitChar k ≠ '-'
      ∧ (digitChar k).toNat = 48 + k := by
  interval_cases k <;> exact ⟨rfl, rfl, by decide, by decide, by decide, rfl⟩

/-- `splitOnC` leaves a separator-free list whole. -/
theorem splitOnC_no_sep (sep : Char) (l : List Char) (h : ∀ c ∈ l, c ≠ sep) :
    splitOnC sep l = [l] := by
  induction l with
  | nil => rfl
  | cons c t ih =>
    have hc : c ≠ sep := h c (by simp)
    have ht := ih (fun x hx => h x (by simp [hx]))
    simp [splitOnC, hc, ht]

/-- `splitOnC` peels the part before the first separator. -/
theorem splitOnC_append (sep : Char) (a b : List Char) (ha : ∀ c ∈ a, c ≠ sep) :
    splitOnC sep (a ++ sep :: b) = a :: splitOnC sep b := by
  induction a with
  | nil => simp [splitOnC]
  | cons c t ih =>
    have hc : c ≠ sep := ha c (by simp)
    have ht := ih (fun x hx => ha x (by simp [hx]))
    simp [splitOnC, hc, ht]

/-- Stripping whitespace from a two-character whitespace-free list. -/
theorem stripWsL_pair (c1 c2 : Char) (h1 : isPyWs c1 = false) (h2 : isPyWs c2 = false) :
    stripWsL [c1, c2] = [c1, c2] := by
  simp [stripWsL, List.dropWhile, h1, h2]

/-- Python `int` inverts the two-digit rendering. -/
theorem pyIntL_twoDigit (n : Nat) (h : n ≤ 99) : pyIntL (twoDigitL n) = some ((n : Nat) : Int) := by
  have h1 : n / 10 % 10 ≤ 9 := Nat.le_of_lt_succ (Nat.mod_lt _ (by decide))
  have h2 : n % 10 ≤ 9 := Nat.le_of_lt_succ (Nat.mod_lt _ (by decide))
  obtain ⟨d1a, d1b, _, d1d, d1e, d1f⟩ := digitChar_props _ h1
  obtain ⟨d2a, d2b, _, _, _, d2f⟩ := digitChar_props _ h2
  have hs : stripWsL (twoDigitL n) = twoDigitL n := stripWsL_pair _ _ d1b d2b
  have hval : digitsToNat (twoDigitL n) = n := by
    simp only [digitsToNat, twoDigitL, List.foldl, d1f, d2f]
    omega
  have hplus : ((twoDigitL n).head? = some '+') = False := by
    simp [twoDigitL, d1d]
  have hminus : ((twoDigitL n).head? = some '-') = False := by
    simp [twoDigitL, d1e]
  have hcore : pyIntCore (twoDigitL n) = some ((n : Nat) : Int) := by
    rw [pyIntCore, if_pos]
    · rw [hval]
    · simp [twoDigitL, d1a, d2a]
  simp only [pyIntL, hs, hplus, if_false, hminus, hcore]

/-- C2: for every `DD/MM` token, `_infer_date` resolves the day and month
digits, sets the year to `statement_year - 1` exactly when the token's
month exceeds the statement month, and yields the date when it is a valid
calendar date and no date otherwise; on anchor `(2025, 7)` the token
`30/06` gives 2025-06-30 and `01/07` gives 2025-07-01; day 31 of June and
an unsplittable token give no date. -/
theorem infer_date_spec (d m : Nat) (sy sm : Int) (hd : d ≤ 99) (hm : m ≤ 99) :
    infer_date ⟨twoDigitL d ++ '/' :: twoDigitL m⟩ sy sm
        = makeDate (if (m : Int) > sm then sy - 1 else sy) m d
      ∧ infer_date "30/06" 2025 7 = some ⟨2025, 6, 30⟩
      ∧ infer_date "01/07" 2025 7 = some ⟨2025, 7, 1⟩
      ∧ infer_date "31/06" 2025 7 = none
      ∧ infer_date "3006" 2025 7 = none := by
  refine ⟨?_, by decide, by decide, by decide, by decide⟩
  have hd9 : d / 10 % 10 ≤ 9 := Nat.le_of_lt_succ (Nat.mod_lt _ (by decide))
  have hd9b : d % 10 ≤ 9 := Nat.le_of_lt_succ (Nat.mod_lt _ (by decide))
  have hm9 : m / 10 % 10 ≤ 9 := Nat.le_of_lt_succ (Nat.mod_lt _ (by decide))
  have hm9b : m % 10 ≤ 9 := Nat.le_of_lt_succ (Nat.mod_lt _ (by decide))
  have hsep : ∀ c ∈ twoDigitL d, c ≠ '/' := by
    intro c hc
    simp [twoDigitL] at hc
    rcases hc with rfl | rfl
    · exact (digitChar_props _ hd9).2.2.1
    · exact (digitChar_props _ hd9b).2.2.1
  have hsep2 : ∀ c ∈ twoDigitL m, c ≠ '/' := by
    intro c hc
    simp [twoDigitL] at hc
    rcases hc with rfl | rfl
    · exact (digitChar_props _ hm9).2.2.1
    · exact (digitChar_props _ hm9b).2.2.1
  have hsplit : splitOnC '/' (twoDigitL d ++ '/' :: twoDigitL m)
      = [twoDigitL d, twoDigitL m] := by
    rw [splitOnC_append _ _ _ hsep, splitOnC_no_sep _ _ hsep2]
  show inferDateL (twoDigitL d ++ '/' :: twoDigitL m) sy sm = _
  rw [inferDateL, hsplit]
  simp [pyIntL_twoDigit d hd, pyIntL_twoDigit m hm]

/-- Witness for C2: the general statement applied at day 30, month 6,
anchor `(2025, 7)`. -/
theorem infer_date_spec_witness :
    infer_date ⟨twoDigitL 30 ++ '/' :: twoDigitL 6⟩ 2025 7 = makeDate 2025 6 30
      ∧ infer_date "30/06" 2025 7 = some ⟨2025, 6, 30⟩ := by
  have h := infer_date_spec 30 6 2025 7 (by decide) (by decide)
  have h1 := h.1
  norm_num at h1
  exact ⟨h1, h.2.1⟩

/-! ### C7 — no match leaves classification untouched -/

/-- Is `r` an active rule whose lowered pattern occurs in the lowered
description of `tx`? -/
def activeMatch (tx : Transaction) (r : Rule) : Bool :=
  r.status = "active"
    && listHas (pyLowerL tx.description.toList) (pyLowerL r.pattern.toList)

/-- Membership through stable insertion. -/
theorem mem_insSorted (le : α → α → Bool) (a x : α) (l : List α)
    (h : x ∈ insSorted le a l) : x = a ∨ x ∈ l := by
  induction l with
  | nil => simpa [insSorted] using h
  | cons b t ih =>
    rw [insSorted] at h
    by_cases hle : le b a = true
    · rw [if_pos hle, List.mem_cons] at h
      rcases h with h | h
      · exact Or.inr (by simp [h])
      · rcases ih h with h1 | h1
        · exact Or.inl h1
        · exact Or.inr (by simp [h1])
    · rw [if_neg hle, List.mem_cons] at h
      rcases h with h | h
      · exact Or.inl h
      · exact Or.inr h

/-- Membership through the stable sort. -/
theorem mem_pySorted (le : α → α → Bool) (l : List α) (x : α)
    (h : x ∈ pySorted le l) : x ∈ l := by
  suffices hgen : ∀ (l : List α) (acc : List α), x ∈ l.foldl (fun a b => insSorted le b a) acc
      → x ∈ acc ∨ x ∈ l by
    rcases hgen l [] h with h1 | h1
    · simp at h1
    · exact h1
  intro l
  induction l with
  | nil => intro acc h; exact Or.inl h
  | cons b t ih =>
    intro acc h
    rcases ih (insSorted le b acc) h with h1 | h1
    · rcases mem_insSorted le b x acc h1 with h2 | h2
      · exact Or.inr (by simp [h2])
      · exact Or.inl h2
    · exact Or.inr (by simp [h1])

/-- The scan leaves the transaction whole when nothing matches. -/
theorem scanRules_no_match (tx : Transaction) (l : List Rule)
    (h : ∀ r ∈ l, activeMatch tx r = false) : scanRules tx l = tx := by
  induction l with
  | nil => rfl
  | cons r t ih =>
    have hr := h r (by simp)
    have ht := ih (fun x hx => h x (by simp [hx]))
    rw [scanRules]
    by_cases hst : r.status = "active"
    · have hHas : listHas (pyLowerL tx.description.data) (pyLowerL r.pattern.data) = false := by
        simpa [activeMatch, hst, String.toList] using hr
      simp [hst, hHas, ht]
    · simp [hst, ht]

/-- C7: when no active rule's pattern occurs case-insensitively in the
transaction's description, the call leaves the transaction — category and
subcategory included — exactly as it was.  This holds for what the source
executes (the first conjunct: the raised `NameError` on a nonempty list
happens before any field assignment, and an empty list is a no-op) and
for the scan the source documents (the second conjunct). -/
theorem apply_rules_no_match_frame (tx : Transaction) (rules : List Rule)
    (h : ∀ r ∈ rules, activeMatch tx r = false) :
    (apply_rules tx rules).1 = tx ∧ apply_rules_intended tx rules = tx := by
  constructor
  · cases rules <;> rfl
  · exact scanRules_no_match tx _ (fun r hr => h r (mem_pySorted _ _ _ hr))

/-- Witness for C7: an active rule for `tea` does not match a coffee-shop
transaction, which keeps its (empty) classification. -/
theorem apply_rules_no_match_frame_witness :
    (apply_rules coffeeTx
        [ { id := 5, pattern := "tea", priority := 1, category_id := some 9,
            subcategory := some "hot", status := "active" } ]).1 = coffeeTx
      ∧ apply_rules_intended coffeeTx
        [ { id := 5, pattern := "tea", priority := 1, category_id := some 9,
            subcategory := some "hot", status := "active" } ] = coffeeTx :=
  apply_rules_no_match_frame coffeeTx _ (by decide)

/-! ### C6 — statement status transitions -/

/-- Category resolution touches only the category table and its counter. -/
theorem resolveCat_frame (db : DB) (c : Option String) :
    (resolveCat db c).1.statements = db.statements
      ∧ (resolveCat db c).1.rules = db.rules
      ∧ (resolveCat db c).1.transactions = db.transactions
      ∧ (resolveCat db c).1.nextTxnId = db.nextTxnId := by
  rcases c with _ | name
  · exact ⟨rfl, rfl, rfl, rfl⟩
  · rw [resolveCat]
    by_cases h : name = ""
    · simp [h]
    · rcases hf : db.categories.find? (fun p => p.2 = name) with _ | p <;> simp [h, hf]

/-- A row insertion touches neither statements nor rules. -/
theorem processRow_frame (db : DB) (sid : Int) (r : Row) :
    (processRow db sid r).statements = db.statements
      ∧ (processRow db sid r).rules = db.rules := by
  obtain ⟨h1, h2, h3, h4⟩ := resolveCat_frame db r.category
  rw [processRow]
  rcases r.amount with _ | a
  · exact ⟨h1, h2⟩
  · simp only []
    by_cases hg : (resolveCat db r.category).1.transactions.any
        (fun ex => guardBlocks ex (mkTxn (resolveCat db r.category).1.nextTxnId sid r (resolveCat db r.category).2)) = true
    · simp [hg, h1, h2]
    · simp [hg, h1, h2]

/-- The whole row loop touches neither statements nor rules. -/
theorem processRows_frame (db : DB) (sid : Int) (rows : List Row) :
    (processRows db sid rows).statements = db.statements
      ∧ (processRows db sid rows).rules = db.rules := by
  induction rows generalizing db with
  | nil => exact ⟨rfl, rfl⟩
  | cons r rest ih =>
    obtain ⟨h1, h2⟩ := processRow_frame db sid r
    obtain ⟨h3, h4⟩ := ih (processRow db sid r)
    exact ⟨by rw [processRows] at *; simpa [h1] using h3,
           by rw [processRows] at *; simpa [h2] using h4⟩

/-- `reapply_all` touches only the transaction table. -/
theorem reapply_all_statements (db : DB) :
    (reapply_all db).1.statements = db.statements := rfl

/-- Looking a statement up only reads the statement table. -/
theorem findStmt_congr (db1 db2 : DB) (sid : Int)
    (h : db1.statements = db2.statements) : findStmt db1 sid = findStmt db2 sid := by
  unfold findStmt
  rw [h]

/-- `find?` after the status update of `setStmt`. -/
theorem find?_update (sid : Int) (st : String) (err : Option String)
    (l : List Statement) (s : Statement)
    (h : l.find? (fun x => x.id = sid) = some s) :
    (l.map (fun x => if x.id = sid then { x with status := st, error_message := err } else x)).find?
        (fun x => x.id = sid)
      = some { s with status := st, error_message := err } := by
  induction l with
  | nil => simp at h
  | cons a t ih =>
    by_cases ha : a.id = sid
    · rw [List.find?_cons_of_pos _ (by simpa using ha)] at h
      have h1 : a = s := by injection h
      subst h1
      rw [List.map_cons, if_pos ha, List.find?_cons_of_pos _ (by simpa using ha)]
    · rw [List.find?_cons_of_neg _ (by simpa using ha)] at h
      rw [List.map_cons, if_neg ha, List.find?_cons_of_neg _ (by simpa using ha)]
      exact ih h

/-- The statement lookup after `setStmt`. -/
theorem findStmt_setStmt (db : DB) (sid : Int) (s : Statement) (st : String)
    (err : Option String) (h : findStmt db sid = some s) :
    findStmt (setStmt db sid st err) sid
      = some { s with status := st, error_message := err } := by
  unfold findStmt setStmt at *
  exact find?_update sid st err db.statements s h

/-- C6: with the statement present, a failure while reading or parsing the
file marks it `failed` and stores the captured message; when the pipeline
reaches the end (the reclassification pass raises nothing) the statement
is marked `processed` and any prior error is cleared — for every list of
rows, duplicates and unparsable fields included, so per-row anomalies
never produce the `failed` transition; and when the reclassification pass
raises, the statement is marked `failed` with that message. -/
theorem queue_parse_status_transitions (db : DB) (sid : Int) (s : Statement)
    (hs : findStmt db sid = some s) :
    (∀ e, findStmt (queue_parse db sid (.error e)) sid
        = some { s with status := "failed", error_message := some e })
      ∧ (∀ rows, (reapply_all (processRows db sid rows)).2 = none →
          findStmt (queue_parse db sid (.ok rows)) sid
            = some { s with status := "processed", error_message := none })
      ∧ (∀ rows m, (reapply_all (processRows db sid rows)).2 = some m →
          findStmt (queue_parse db sid (.ok rows)) sid
            = some { s with status := "failed", error_message := some m }) := by
  refine ⟨?_, ?_, ?_⟩
  · intro e
    rw [queue_parse, hs]
    exact findStmt_setStmt db sid s "failed" (some e) hs
  · intro rows hnone
    have hstmts : (reapply_all (processRows db sid rows)).1.statements = db.statements := by
      rw [reapply_all_statements]
      exact (processRows_frame db sid rows).1
    have hfind : findStmt (reapply_all (processRows db sid rows)).1 sid = some s := by
      rw [findStmt_congr _ db sid hstmts]
      exact hs
    rcases hp : reapply_all (processRows db sid rows) with ⟨db2, e2⟩
    rw [hp] at hnone hfind
    simp only at hnone hfind
    subst hnone
    simp only [queue_parse, hs, hp]
    exact findStmt_setStmt db2 sid s "processed" none hfind
  · intro rows m hsome
    have hstmts : (reapply_all (processRows db sid rows)).1.statements = db.statements := by
      rw [reapply_all_statements]
      exact (processRows_frame db sid rows).1
    have hfind : findStmt (reapply_all (processRows db sid rows)).1 sid = some s := by
      rw [findStmt_congr _ db sid hstmts]
      exact hs
    rcases hp : reapply_all (processRows db sid rows) with ⟨db2, e2⟩
    rw [hp] at hsome hfind
    simp only at hsome hfind
    subst hsome
    simp only [queue_parse, hs, hp]
    exact findStmt_setStmt db2 sid s "failed" (some m) hfind

/-- Witness for C6 at a concrete state (statement 1 carries a stale error
message): a read failure stores its message; ingesting a duplicate pair of
rows with no rules ends `processed` with the stale error cleared. -/
theorem queue_parse_status_transitions_witness :
    findStmt (queue_parse dbPlain 1 (.error "boom")) 1
        = some { stmtProcessing with status := "failed", error_message := some "boom" }
      ∧ findStmt (queue_parse dbPlain 1 (.ok [rowWithDate, rowWithDate])) 1
        = some { stmtProcessing with status := "processed", error_message := none } := by
  have h := queue_parse_status_transitions dbPlain 1 stmtProcessing (by decide)
  exact ⟨h.1 "boom", h.2.1 [rowWithDate, rowWithDate] (by decide)⟩

/-! ### C8 — what ingestion does to pre-existing transactions -/

/-- The defective `apply_rules` never alters the transaction: it either
raises before touching it or, on an empty rule list, never enters the
loop. -/
theorem apply_rules_fst (t : Transaction) (rules : List Rule) :
    (apply_rules t rules).1 = t := by
  cases rules <;> rfl

/-- Hence the `reapply_all` loop returns the transaction list unchanged,
whether or not it raises. -/
theorem reapplyAllGo_fst (rules : List Rule) (l : List Transaction) :
    (reapplyAllGo rules l).1 = l := by
  induction l with
  | nil => rfl
  | cons t ts ih =>
    have hfst := apply_rules_fst t rules
    rcases h : apply_rules t rules with ⟨t', e⟩
    rw [h] at hfst
    simp only at hfst
    subst hfst
    rcases e with _ | e <;> simp [reapplyAllGo, h, ih]

/-- A single row insertion keeps every pre-existing transaction. -/
theorem processRow_mem (db : DB) (sid : Int) (r : Row) (t : Transaction)
    (ht : t ∈ db.transactions) : t ∈ (processRow db sid r).transactions := by
  have htx : (resolveCat db r.category).1.transactions = db.transactions :=
    (resolveCat_frame db r.category).2.2.1
  rw [processRow]
  rcases r.amount with _ | a
  · simpa [htx] using ht
  · simp only []
    split
    · simpa [htx] using ht
    · simp only [htx, List.mem_append]
      exact Or.inl ht

/-- The whole row loop keeps every pre-existing transaction. -/
theorem processRows_mem (db : DB) (sid : Int) (rows : List Row) (t : Transaction)
    (ht : t ∈ db.transactions) : t ∈ (processRows db sid rows).transactions := by
  induction rows generalizing db with
  | nil => exact ht
  | cons r rest ih =>
    rw [processRows] at *
    exact ih (processRow db sid r) (processRow_mem db sid r t ht)

/-- C8 (amended): ingestion invokes the Rule Engine through the
system-wide `reapply_all`, not over the ingested statement's transactions
only (see the counterexample); nevertheless every pre-existing
transaction — in particular every transaction of another statement — is
still present with category and subcategory untouched after the
ingestion, because the engine raises before mutating whenever it has any
rule and transaction to work on. -/
theorem queue_parse_preserves_existing_transactions (db : DB) (sid : Int)
    (res : Except String (List Row)) (t : Transaction) (ht : t ∈ db.transactions) :
    t ∈ (queue_parse db sid res).transactions := by
  rw [queue_parse.eq_def]
  rcases hf : findStmt db sid with _ | s
  · exact ht
  · rcases res with e | rows
    · exact ht
    · simp only []
      have hmem : t ∈ (processRows db sid rows).transactions := processRows_mem db sid rows t ht
      have htx : (reapply_all (processRows db sid rows)).1.transactions
          = (processRows db sid rows).transactions := by
        rw [reapply_all]
        simp only []
        exact reapplyAllGo_fst _ _
      rcases hp : reapply_all (processRows db sid rows) with ⟨db2, e2⟩
      rw [hp] at htx
      simp only at htx
      rcases e2 with _ | e2 <;> simp only [setStmt] <;> rw [htx] <;> exact hmem

/-- Witness for C8 (amended): the other statement's transaction survives
the ingestion of statement 1 untouched. -/
theorem queue_parse_preserves_existing_transactions_witness :
    txOther ∈ (queue_parse dbTwoStatements 1 (.ok [])).transactions :=
  queue_parse_preserves_existing_transactions dbTwoStatements 1 (.ok []) txOther (by decide)

/-! ### C4 — the dedup guard -/

/-- Does `t` carry exactly the persisted tuple
`(statement sid, transaction date, description, amount)`? -/
def tupleIs (sid : Int) (d : Option PyDate) (desc : String) (amt : ℚ) (t : Transaction) : Bool :=
  t.statement_id = sid && t.txn_date = d && t.description = desc && t.amount = amt

/-- Unpack a tuple match into its field equations. -/
theorem tupleIs_fields (sid : Int) (d : Option PyDate) (desc : String) (a : ℚ)
    (t : Transaction) (h : tupleIs sid d desc a t = true) :
    t.statement_id = sid ∧ t.txn_date = d ∧ t.description = desc ∧ t.amount = a := by
  simp [tupleIs] at h
  exact ⟨h.1.1.1, h.1.1.2, h.1.2, h.2⟩

/-- Build a tuple match from its field equations. -/
theorem tupleIs_intro (sid : Int) (d : Option PyDate) (desc : String) (a : ℚ)
    (t : Transaction) (h1 : t.statement_id = sid) (h2 : t.txn_date = d)
    (h3 : t.description = desc) (h4 : t.amount = a) :
    tupleIs sid d desc a t = true := by
  simp [tupleIs, h1, h2, h3, h4]

/-- For a row with a resolved date, the guard comparison against the
worker's new transaction is exactly the tuple match. -/
theorem guardBlocks_eq_tupleIs (ex : Transaction) (tid sid : Int) (r : Row)
    (catId : Option Int) (d : PyDate) (a : ℚ)
    (hdate : rowDate r = some d) (hamt : r.amount = some a) :
    guardBlocks ex (mkTxn tid sid r catId) = tupleIs sid (some d) (rowDesc r) a ex := by
  rcases hx : ex.txn_date with _ | d1 <;>
    by_cases h1 : ex.statement_id = sid <;>
    by_cases h2 : ex.description = rowDesc r <;>
    by_cases h3 : ex.amount = a <;>
    simp [guardBlocks, tupleIs, mkTxn, hdate, hamt, hx, h1, h2, h3]

/-- Two transactions carrying the same non-`NULL` tuple block each other. -/
theorem guardBlocks_of_tupleIs (ex t2 : Transaction) (sid : Int) (d : PyDate)
    (desc : String) (a : ℚ)
    (hex : tupleIs sid (some d) desc a ex = true)
    (ht2 : tupleIs sid (some d) desc a t2 = true) :
    guardBlocks ex t2 = true := by
  obtain ⟨e1, e2, e3, e4⟩ := tupleIs_fields _ _ _ _ _ hex
  obtain ⟨f1, f2, f3, f4⟩ := tupleIs_fields _ _ _ _ _ ht2
  simp [guardBlocks, e1, e2, e3, e4, f1, f2, f3, f4]

/-- First encounter of a dated row no existing transaction matches: the
row is inserted. -/
theorem processRow_inserts (db : DB) (sid : Int) (r : Row) (d : PyDate) (a : ℚ)
    (hdate : rowDate r = some d) (hamt : r.amount = some a)
    (h0 : ∀ t ∈ db.transactions, tupleIs sid (some d) (rowDesc r) a t = false) :
    (processRow db sid r).transactions
        = db.transactions
            ++ [mkTxn (resolveCat db r.category).1.nextTxnId sid r (resolveCat db r.category).2]
      ∧ (processRow db sid r).categories = (resolveCat db r.category).1.categories := by
  have htx : (resolveCat db r.category).1.transactions = db.transactions :=
    (resolveCat_frame db r.category).2.2.1
  have hany : (resolveCat db r.category).1.transactions.any
      (fun ex => guardBlocks ex
        (mkTxn (resolveCat db r.category).1.nextTxnId sid r (resolveCat db r.category).2))
      = false := by
    rw [htx, List.any_eq_false]
    intro x hxmem
    rw [guardBlocks_eq_tupleIs x _ sid r _ d a hdate hamt]
    simp [h0 x hxmem]
  simp only [processRow, hamt]
  rw [hany]
  simp [htx]

/-- The worker's transaction for a dated row matches its own tuple. -/
theorem mkTxn_tupleIs (tid sid : Int) (r : Row) (catId : Option Int) (d : PyDate) (a : ℚ)
    (hdate : rowDate r = some d) (hamt : r.amount = some a) :
    tupleIs sid (some d) (rowDesc r) a (mkTxn tid sid r catId) = true := by
  apply tupleIs_intro <;> simp [mkTxn, hdate, hamt]

/-- `resolveCat` is a pure read when the category is already present (or
the row carries none). -/
theorem resolveCat_state_id (db2 : DB) (c : Option String)
    (h : ∀ name, c = some name → name ≠ ""
        → (db2.categories.find? (fun p => p.2 = name)).isSome = true) :
    (resolveCat db2 c).1 = db2 := by
  rcases c with _ | name
  · rfl
  · rw [resolveCat]
    by_cases hne : name = ""
    · simp [hne]
    · have hsome := h name rfl hne
      rcases hf : db2.categories.find? (fun p => p.2 = name) with _ | p
      · rw [hf] at hsome
        simp at hsome
      · simp [hne, hf]

/-- After one resolution the category can be found. -/
theorem resolveCat_provides (db : DB) (name : String) (hne : name ≠ "") :
    ((resolveCat db (some name)).1.categories.find? (fun p => p.2 = name)).isSome = true := by
  rw [resolveCat]
  rcases hf : db.categories.find? (fun p => p.2 = name) with _ | p
  · simp [hne, hf, List.find?_append]
  · simp [hne, hf]

/-- The category table after a row is whatever category resolution left. -/
theorem processRow_categories (db : DB) (sid : Int) (r : Row) :
    (processRow db sid r).categories = (resolveCat db r.category).1.categories := by
  rw [processRow]
  rcases r.amount with _ | a
  · rfl
  · simp only []
    split <;> rfl

/-- Re-ingesting the same dated row immediately afterwards changes
nothing: the category lookup is now a pure read and the uniqueness guard
rolls the duplicate insert back. -/
theorem processRow_dup_noop (db : DB) (sid : Int) (r : Row) (d : PyDate) (a : ℚ)
    (hdate : rowDate r = some d) (hamt : r.amount = some a)
    (h0 : ∀ t ∈ db.transactions, tupleIs sid (some d) (rowDesc r) a t = false) :
    processRow (processRow db sid r) sid r = processRow db sid r := by
  obtain ⟨hins, hcats⟩ := processRow_inserts db sid r d a hdate hamt h0
  have hcid : (resolveCat (processRow db sid r) r.category).1 = processRow db sid r := by
    apply resolveCat_state_id
    intro name hc hne
    rw [hcats, hc]
    exact resolveCat_provides db name hne
  have hexist : ∃ ex ∈ (processRow db sid r).transactions,
      tupleIs sid (some d) (rowDesc r) a ex = true := by
    refine ⟨mkTxn (resolveCat db r.category).1.nextTxnId sid r (resolveCat db r.category).2,
      ?_, mkTxn_tupleIs _ _ _ _ _ _ hdate hamt⟩
    rw [hins]
    simp
  have hany : (resolveCat (processRow db sid r) r.category).1.transactions.any
      (fun ex => guardBlocks ex
        (mkTxn (resolveCat (processRow db sid r) r.category).1.nextTxnId sid r
          (resolveCat (processRow db sid r) r.category).2)) = true := by
    rw [hcid]
    obtain ⟨ex, hmem, hPex⟩ := hexist
    rw [List.any_eq_true]
    refine ⟨ex, hmem, ?_⟩
    rw [guardBlocks_eq_tupleIs ex _ sid r _ d a hdate hamt]
    exact hPex
  conv_lhs => rw [processRow, hamt]
  simp only []
  rw [hany]
  simp [hcid]

/-- Once a transaction matching the tuple exists, no row ever inserts a
second one: the filter over the tuple is stable under further rows. -/
theorem processRow_filter_stable (db2 : DB) (sid : Int) (r2 : Row) (d : PyDate)
    (desc : String) (a : ℚ)
    (hex : ∃ ex ∈ db2.transactions, tupleIs sid (some d) desc a ex = true) :
    (processRow db2 sid r2).transactions.filter (tupleIs sid (some d) desc a)
      = db2.transactions.filter (tupleIs sid (some d) desc a) := by
  have htx : (resolveCat db2 r2.category).1.transactions = db2.transactions :=
    (resolveCat_frame db2 r2.category).2.2.1
  rw [processRow]
  rcases hA : r2.amount with _ | a2
  · rw [htx]
  · simp only []
    split
    · rw [htx]
    · next hg =>
      obtain ⟨ex, hmem, hPex⟩ := hex
      have hPt2 : tupleIs sid (some d) desc a
          (mkTxn (resolveCat db2 r2.category).1.nextTxnId sid r2 (resolveCat db2 r2.category).2)
          = false := by
        by_contra hc
        rw [Bool.not_eq_false] at hc
        apply hg
        rw [htx, List.any_eq_true]
        exact ⟨ex, hmem, guardBlocks_of_tupleIs ex _ sid d desc a hPex hc⟩
      simp [List.filter_append, hPt2, htx]

/-- `processRows` unfolds one row at a time. -/
theorem processRows_cons (db : DB) (sid : Int) (r : Row) (rest : List Row) :
    processRows db sid (r :: rest) = processRows (processRow db sid r) sid rest := rfl

/-- The filter over a matched tuple is stable under a whole row list. -/
theorem processRows_filter_stable (sid : Int) (rows : List Row) (d : PyDate)
    (desc : String) (a : ℚ) :
    ∀ db2 : DB, (∃ ex ∈ db2.transactions, tupleIs sid (some d) desc a ex = true) →
      (processRows db2 sid rows).transactions.filter (tupleIs sid (some d) desc a)
        = db2.transactions.filter (tupleIs sid (some d) desc a) := by
  induction rows with
  | nil => intro db2 _; rfl
  | cons r2 rest ih =>
    intro db2 h
    rw [processRows_cons]
    have hex2 : ∃ ex ∈ (processRow db2 sid r2).transactions,
        tupleIs sid (some d) desc a ex = true := by
      obtain ⟨ex, hm, hp⟩ := h
      exact ⟨ex, processRow_mem db2 sid r2 ex hm, hp⟩
    rw [ih _ hex2, processRow_filter_stable db2 sid r2 d desc a h]

/-- C4 (amended): for a row whose transaction date resolves (non-`NULL`),
ingesting the same payload twice for the same statement persists exactly
one transaction matching the tuple, the duplicate insert is absorbed — the
second copy changes the state not at all — and the remaining rows are
ingested exactly as they would have been without the duplicate.  (For a
row with a `NULL` date the guard does not fire; see the counterexample.) -/
theorem ingest_dedup_row_with_date (db : DB) (sid : Int) (r : Row) (rest : List Row)
    (d : PyDate) (a : ℚ)
    (hdate : rowDate r = some d) (hamt : r.amount = some a)
    (h0 : ∀ t ∈ db.transactions, tupleIs sid (some d) (rowDesc r) a t = false) :
    processRows db sid (r :: r :: rest) = processRows db sid (r :: rest)
      ∧ ((processRows db sid (r :: r :: rest)).transactions.filter
          (tupleIs sid (some d) (rowDesc r) a)).length = 1 := by
  have hdup := processRow_dup_noop db sid r d a hdate hamt h0
  have heq : processRows db sid (r :: r :: rest) = processRows db sid (r :: rest) := by
    rw [processRows_cons, processRows_cons, hdup, ← processRows_cons]
  refine ⟨heq, ?_⟩
  rw [heq, processRows_cons]
  obtain ⟨hins, _⟩ := processRow_inserts db sid r d a hdate hamt h0
  have hfilter1 : (processRow db sid r).transactions.filter (tupleIs sid (some d) (rowDesc r) a)
      = [mkTxn (resolveCat db r.category).1.nextTxnId sid r (resolveCat db r.category).2] := by
    rw [hins, List.filter_append]
    have hnil : db.transactions.filter (tupleIs sid (some d) (rowDesc r) a) = [] := by
      rw [List.filter_eq_nil_iff]
      intro t hmem
      simp [h0 t hmem]
    rw [hnil]
    simp [mkTxn_tupleIs _ _ _ _ _ _ hdate hamt]
  have hex : ∃ ex ∈ (processRow db sid r).transactions,
      tupleIs sid (some d) (rowDesc r) a ex = true := by
    refine ⟨mkTxn (resolveCat db r.category).1.nextTxnId sid r (resolveCat db r.category).2,
      ?_, mkTxn_tupleIs _ _ _ _ _ _ hdate hamt⟩
    rw [hins]
    simp
  rw [processRows_filter_stable sid rest d _ a _ hex, hfilter1]
  rfl

/-- Witness for C4 (amended) at a concrete state: the dated payload
`("2025-06-30", "X", 5)` ingested twice for statement 1 leaves exactly one
matching transaction, and the second copy is a no-op. -/
theorem ingest_dedup_row_with_date_witness :
    processRows dbPlain 1 [rowWithDate, rowWithDate] = processRows dbPlain 1 [rowWithDate]
      ∧ ((processRows dbPlain 1 [rowWithDate, rowWithDate]).transactions.filter
          (tupleIs 1 (some ⟨2025, 6, 30⟩) (rowDesc rowWithDate) 5)).length = 1 :=
  ingest_dedup_row_with_date dbPlain 1 rowWithDate [] ⟨2025, 6, 30⟩ 5
    (by decide) (by decide) (by decide)

/-- Counterexample to C4 as stated: the unique index treats `NULL` like
every SQL unique index — `NULL`s are distinct — so a row whose transaction
date does not resolve is not deduplicated: ingesting the payload
`(date none, "X", 5)` twice for statement 1 persists two transactions
matching the tuple, not one. -/
theorem dedup_null_date_counterexample :
    ((processRows dbPlain 1 [rowNoDate, rowNoDate]).transactions.filter
      (tupleIs 1 none "X" 5)).length = 2 := by decide

/-! ### C9 — the description normaliser -/

/-- Counterexample to C9 as stated: the raw description is
`desc.strip()`, not the verbatim input — on input `" X"` the returned raw
form is `"X"`. -/
theorem normalise_description_raw_not_verbatim :
    normalise_description " X" = ("X", "X") ∧ (" X" : String) ≠ "X" := by
  exact ⟨by decide, by decide⟩

/-- A whitespace head collapses into the rest. -/
theorem wordsOf_cons_ws (c : Char) (t : List Char) (hc : isPyWs c = true) :
    wordsOf (c :: t) = wordsOf t := by
  rw [wordsOf.eq_def]
  simp only []
  rw [if_pos hc]

/-- A non-whitespace head guarantees at least one word. -/
theorem wordsOf_ne_nil_head (c : Char) (t : List Char) (hc : isPyWs c = false) :
    wordsOf (c :: t) ≠ [] := by
  rw [wordsOf.eq_def]
  simp only []
  rw [if_neg (by simp [hc])]
  cases t with
  | nil => simp
  | cons d t2 =>
    by_cases hd : isPyWs d
    · simp [hd]
    · rcases hw : wordsOf (d :: t2) with _ | ⟨w, ws⟩ <;> simp [hd, hw]

/-- A non-whitespace last character guarantees at least one word. -/
theorem wordsOf_ne_nil_last (l : List Char) (c : Char)
    (hlast : l.getLast? = some c) (hc : isPyWs c = false) : wordsOf l ≠ [] := by
  induction l with
  | nil => simp at hlast
  | cons a t ih =>
    cases t with
    | nil =>
      simp at hlast
      subst hlast
      exact wordsOf_ne_nil_head a [] hc
    | cons b t2 =>
      rw [List.getLast?_cons_cons] at hlast
      by_cases ha : isPyWs a
      · rw [wordsOf_cons_ws a _ ha]
        exact ih hlast
      · exact wordsOf_ne_nil_head a _ (by simpa using ha)

/-- Every word is nonempty and whitespace-free. -/
theorem wordsOf_good (l : List Char) :
    ∀ w ∈ wordsOf l, w ≠ [] ∧ ∀ c ∈ w, isPyWs c = false := by
  induction l with
  | nil => intro w hw; simp [wordsOf] at hw
  | cons c t ih =>
    intro w hw
    rw [wordsOf.eq_def] at hw
    simp only [] at hw
    by_cases hc : isPyWs c
    · rw [if_pos hc] at hw
      exact ih w hw
    · rw [if_neg hc] at hw
      cases t with
      | nil =>
        simp at hw
        subst hw
        refine ⟨by simp, ?_⟩
        intro x hx
        simp at hx
        subst hx
        simpa using hc
      | cons d t2 =>
        simp only [] at hw
        by_cases hd : isPyWs d
        · rw [if_pos hd] at hw
          rcases List.mem_cons.mp hw with rfl | hw2
          · refine ⟨by simp, ?_⟩
            intro x hx
            simp at hx
            subst hx
            simpa using hc
          · exact ih w hw2
        · rw [if_neg hd] at hw
          rcases hwt : wordsOf (d :: t2) with _ | ⟨w1, ws1⟩
          · rw [hwt] at hw
            simp at hw
            subst hw
            refine ⟨by simp, ?_⟩
            intro x hx
            simp at hx
            subst hx
            simpa using hc
          · rw [hwt] at hw
            rcases List.mem_cons.mp hw with rfl | hw2
            · have h1 := ih w1 (by rw [hwt]; simp)
              refine ⟨by simp, ?_⟩
              intro x hx
              rcases List.mem_cons.mp hx with rfl | hx2
              · simpa using hc
              · exact h1.2 x hx2
            · exact ih w (by rw [hwt]; simp [hw2])

/-- `wordsOf` on a single non-whitespace character. -/
theorem wordsOf_singleton (c : Char) (hc : isPyWs c = false) : wordsOf [c] = [[c]] := by
  rw [wordsOf.eq_def]
  simp [hc]

/-- `wordsOf` when a word ends before whitespace. -/
theorem wordsOf_cons_cons_ws (c d : Char) (t : List Char)
    (hc : isPyWs c = false) (hd : isPyWs d = true) :
    wordsOf (c :: d :: t) = [c] :: wordsOf (d :: t) := by
  rw [wordsOf.eq_def]
  simp only []
  simp [hc, hd]

/-- `wordsOf` when a word continues. -/
theorem wordsOf_cons_cons_nonws (c d : Char) (t : List Char) (w : List Char)
    (ws : List (List Char)) (hc : isPyWs c = false) (hd : isPyWs d = false)
    (hw : wordsOf (d :: t) = w :: ws) :
    wordsOf (c :: d :: t) = (c :: w) :: ws := by
  rw [wordsOf.eq_def]
  simp only []
  simp [hc, hd, hw]

/-- All-whitespace input has no words. -/
theorem wordsOf_all_ws (tr : List Char) (h : ∀ c ∈ tr, isPyWs c = true) :
    wordsOf tr = [] := by
  induction tr with
  | nil => rfl
  | cons c t ih =>
    rw [wordsOf_cons_ws c t (h c (by simp))]
    exact ih (fun x hx => h x (by simp [hx]))

/-- Leading whitespace never affects the words. -/
theorem wordsOf_dropWhile (l : List Char) :
    wordsOf (l.dropWhile isPyWs) = wordsOf l := by
  induction l with
  | nil => rfl
  | cons a t ih =>
    rw [List.dropWhile_cons]
    by_cases ha : isPyWs a
    · rw [if_pos ha, ih, wordsOf_cons_ws a t (by simpa using ha)]
    · rw [if_neg ha]

/-- Trailing whitespace never affects the words. -/
theorem wordsOf_append_ws (x tr : List Char) (htr : ∀ c ∈ tr, isPyWs c = true) :
    wordsOf (x ++ tr) = wordsOf x := by
  induction x with
  | nil =>
    rw [List.nil_append]
    exact wordsOf_all_ws tr htr
  | cons c x2 ih =>
    by_cases hc : isPyWs c
    · rw [List.cons_append, wordsOf_cons_ws _ _ (by simpa using hc), wordsOf_cons_ws _ _ (by simpa using hc)]
      exact ih
    · have hc2 : isPyWs c = false := by simpa using hc
      cases x2 with
      | nil =>
        cases tr with
        | nil => rfl
        | cons e tr2 =>
          have he : isPyWs e = true := htr e (by simp)
          rw [show [c] ++ e :: tr2 = c :: e :: tr2 from rfl]
          rw [wordsOf_cons_cons_ws c e tr2 hc2 he, wordsOf_all_ws (e :: tr2) htr,
            wordsOf_singleton c hc2]
      | cons d x3 =>
        by_cases hd : isPyWs d
        · have hd2 : isPyWs d = true := by simpa using hd
          rw [show (c :: d :: x3) ++ tr = c :: d :: (x3 ++ tr) from rfl]
          rw [wordsOf_cons_cons_ws c d _ hc2 hd2, wordsOf_cons_cons_ws c d _ hc2 hd2]
          rw [show d :: (x3 ++ tr) = (d :: x3) ++ tr from rfl, ih]
        · have hd2 : isPyWs d = false := by simpa using hd
          rcases hw : wordsOf (d :: x3) with _ | ⟨w, ws⟩
          · exact absurd hw (wordsOf_ne_nil_head d x3 hd2)
          · have hw2 : wordsOf (d :: (x3 ++ tr)) = w :: ws := by
              rw [show d :: (x3 ++ tr) = (d :: x3) ++ tr from rfl, ih, hw]
            rw [show (c :: d :: x3) ++ tr = c :: d :: (x3 ++ tr) from rfl]
            rw [wordsOf_cons_cons_nonws c d _ w ws hc2 hd2 hw2,
              wordsOf_cons_cons_nonws c d _ w ws hc2 hd2 hw]

/-- The first element surviving `dropWhile` fails the predicate. -/
theorem head?_dropWhile_not (p : Char → Bool) (l : List Char) :
    ∀ c, (l.dropWhile p).head? = some c → p c = false := by
  induction l with
  | nil => intro c h; simp at h
  | cons a t ih =>
    intro c h
    rw [List.dropWhile_cons] at h
    by_cases ha : p a
    · rw [if_pos ha] at h
      exact ih c h
    · rw [if_neg ha] at h
      simp at h
      rw [← h]
      simpa using ha

/-- A nonempty `dropWhile` keeps the last element. -/
theorem getLast?_dropWhile (p : Char → Bool) (l : List Char) (h : l.dropWhile p ≠ []) :
    (l.dropWhile p).getLast? = l.getLast? := by
  induction l with
  | nil => simp at h
  | cons a t ih =>
    rw [List.dropWhile_cons] at h ⊢
    by_cases ha : p a
    · rw [if_pos ha] at h ⊢
      rw [ih h]
      have ht : t ≠ [] := by
        intro he
        rw [he] at h
        simp at h
      cases t with
      | nil => simp at ht
      | cons b t2 => rw [List.getLast?_cons_cons]
    · rw [if_neg ha]

/-- The stripped string does not start with whitespace. -/
theorem stripWsL_head_not_ws (l : List Char) (c : Char)
    (h : (stripWsL l).head? = some c) : isPyWs c = false := by
  rw [stripWsL, List.head?_reverse] at h
  have hne : (l.dropWhile isPyWs).reverse.dropWhile isPyWs ≠ [] := by
    intro he
    rw [he] at h
    simp at h
  rw [getLast?_dropWhile isPyWs _ hne, List.getLast?_reverse] at h
  exact head?_dropWhile_not isPyWs l c h

/-- The stripped string does not end with whitespace. -/
theorem stripWsL_last_not_ws (l : List Char) (c : Char)
    (h : (stripWsL l).getLast? = some c) : isPyWs c = false := by
  rw [stripWsL, List.getLast?_reverse] at h
  exact head?_dropWhile_not isPyWs _ c h

/-- What stripping removes from the end is whitespace: the
leading-stripped string is the stripped string plus a whitespace tail. -/
theorem stripWsL_decomp (l : List Char) :
    l.dropWhile isPyWs
        = stripWsL l ++ ((l.dropWhile isPyWs).reverse.takeWhile isPyWs).reverse
      ∧ ∀ c ∈ ((l.dropWhile isPyWs).reverse.takeWhile isPyWs).reverse, isPyWs c = true := by
  constructor
  · conv_lhs => rw [← List.reverse_reverse (l.dropWhile isPyWs)]
    conv_lhs =>
      rw [show (l.dropWhile isPyWs).reverse
          = (l.dropWhile isPyWs).reverse.takeWhile isPyWs
            ++ (l.dropWhile isPyWs).reverse.dropWhile isPyWs from
        (List.takeWhile_append_dropWhile isPyWs (l.dropWhile isPyWs).reverse).symm]
    exact List.reverse_append _ _
  · intro c hc
    rw [List.mem_reverse] at hc
    exact List.mem_takeWhile_imp hc

/-- Stripping never affects the words. -/
theorem wordsOf_stripWsL (l : List Char) : wordsOf (stripWsL l) = wordsOf l := by
  obtain ⟨hdec, htr⟩ := stripWsL_decomp l
  have h1 : wordsOf (l.dropWhile isPyWs) = wordsOf l := wordsOf_dropWhile l
  rw [hdec, wordsOf_append_ws _ _ htr] at h1
  exact h1

/-- Does the string start with a whitespace character? -/
def headIsWs (l : List Char) : Bool :=
  match l.head? with
  | some c => isPyWs c
  | none => false

/-- Joining a nonempty tail. -/
theorem joinWords_cons_ne_nil (v : List Char) (rest : List (List Char)) (h : rest ≠ []) :
    joinWords (v :: rest) = v ++ ' ' :: joinWords rest := by
  cases rest with
  | nil => simp at h
  | cons w ws => rfl

/-- Joining after extending the first word. -/
theorem joinWords_cons_word (a : Char) (w : List Char) (ws : List (List Char)) :
    joinWords ((a :: w) :: ws) = a :: joinWords (w :: ws) := by
  cases ws with
  | nil => rfl
  | cons w2 ws2 => rfl

/-- The two-character step of the whitespace collapser. -/
theorem collapseWsL_two (a b : Char) (t : List Char) :
    collapseWsL (a :: b :: t)
      = if isPyWs a && isPyWs b then collapseWsL (b :: t)
        else (if isPyWs a then ' ' else a) :: collapseWsL (b :: t) := by
  rw [collapseWsL.eq_def]

/-- Collapsing a string with no trailing whitespace joins its words with
single spaces, with one leading space kept when the string led with
whitespace. -/
theorem collapseWsL_eq_joinWords (l : List Char)
    (htrail : ∀ c, l.getLast? = some c → isPyWs c = false) :
    collapseWsL l
      = if headIsWs l then ' ' :: joinWords (wordsOf l) else joinWords (wordsOf l) := by
  induction l with
  | nil => rfl
  | cons a t ih =>
    cases t with
    | nil =>
      have ha : isPyWs a = false := htrail a (by simp)
      rw [collapseWsL]
      simp [ha, headIsWs, wordsOf_singleton a ha, joinWords]
    | cons b t2 =>
      have htrail2 : ∀ c, (b :: t2).getLast? = some c → isPyWs c = false := by
        intro c hc
        exact htrail c (by rw [List.getLast?_cons_cons]; exact hc)
      have ih2 := ih htrail2
      have hne : wordsOf (b :: t2) ≠ [] := by
        rcases hlast : (b :: t2).getLast? with _ | c
        · simp at hlast
        · exact wordsOf_ne_nil_last _ c hlast (htrail2 c hlast)
      rw [collapseWsL_two]
      by_cases ha : isPyWs a
      · have ha2 : isPyWs a = true := by simpa using ha
        by_cases hb : isPyWs b
        · have hb2 : isPyWs b = true := by simpa using hb
          rw [if_pos (by simp [ha2, hb2]), ih2]
          simp [headIsWs, ha2, hb2, wordsOf_cons_ws a _ ha2]
        · have hb2 : isPyWs b = false := by simpa using hb
          rw [if_neg (by simp [hb2]), ih2]
          simp [headIsWs, ha2, hb2, wordsOf_cons_ws a _ ha2]
      · have ha2 : isPyWs a = false := by simpa using ha
        rw [if_neg (by simp [ha2]), ih2]
        by_cases hb : isPyWs b
        · have hb2 : isPyWs b = true := by simpa using hb
          rw [wordsOf_cons_cons_ws a b t2 ha2 hb2,
            joinWords_cons_ne_nil [a] _ hne]
          simp [headIsWs, ha2, hb2]
        · have hb2 : isPyWs b = false := by simpa using hb
          rcases hw : wordsOf (b :: t2) with _ | ⟨w, ws⟩
          · exact absurd hw hne
          · rw [wordsOf_cons_cons_nonws a b t2 w ws ha2 hb2 hw, joinWords_cons_word]
            simp [headIsWs, ha2, hb2, hw]

/-- Joining onto a final word. -/
theorem joinWords_append_last (vs : List (List Char)) (w : List Char) (h : vs ≠ []) :
    joinWords (vs ++ [w]) = joinWords vs ++ ' ' :: w := by
  induction vs with
  | nil => simp at h
  | cons v rest ih =>
    cases rest with
    | nil => rfl
    | cons v2 rest2 =>
      rw [List.cons_append,
        joinWords_cons_ne_nil v ((v2 :: rest2) ++ [w]) (by simp),
        joinWords_cons_ne_nil v (v2 :: rest2) (by simp), ih (by simp)]
      simp

/-- A nonempty good word list joins to a nonempty string. -/
theorem joinWords_ne_nil (ws : List (List Char)) (h : ws ≠ [])
    (hgood : ∀ w ∈ ws, w ≠ [] ∧ ∀ c ∈ w, isPyWs c = false) : joinWords ws ≠ [] := by
  cases ws with
  | nil => simp at h
  | cons w rest =>
    cases rest with
    | nil => exact (hgood w (by simp)).1
    | cons w2 rest2 =>
      rw [joinWords_cons_ne_nil w _ (by simp)]
      rcases hw : w with _ | ⟨c, w3⟩
      · exact absurd hw (hgood w (by simp)).1
      · simp

/-- The join of good words ends in a word character, never whitespace. -/
theorem joinWords_getLast?_not_ws (ws : List (List Char))
    (hgood : ∀ w ∈ ws, w ≠ [] ∧ ∀ c ∈ w, isPyWs c = false) :
    ∀ c, (joinWords ws).getLast? = some c → isPyWs c = false := by
  induction ws with
  | nil => intro c h; simp [joinWords] at h
  | cons w rest ih =>
    intro c h
    cases rest with
    | nil =>
      have hc : c ∈ w := List.mem_of_mem_getLast? h
      exact (hgood w (by simp)).2 c hc
    | cons w2 rest2 =>
      rw [joinWords_cons_ne_nil w _ (by simp)] at h
      rw [List.getLast?_append_of_ne_nil w (by simp)] at h
      have hne : joinWords (w2 :: rest2) ≠ [] :=
        joinWords_ne_nil _ (by simp) (fun x hx => hgood x (by simp [hx]))
      rcases hj : joinWords (w2 :: rest2) with _ | ⟨j1, j2⟩
      · exact absurd hj hne
      · rw [hj, List.getLast?_cons_cons] at h
        apply ih (fun x hx => hgood x (by simp [hx])) c
        rw [hj]
        exact h

/-- `dropWhile` is the identity when the head fails the predicate. -/
theorem dropWhile_of_head_not (p : Char → Bool) (l : List Char)
    (h : ∀ c, l.head? = some c → p c = false) : l.dropWhile p = l := by
  cases l with
  | nil => rfl
  | cons a t =>
    rw [List.dropWhile_cons, if_neg]
    simp [h a rfl]

/-- A single good word is never stripped of a country code: the pattern
requires preceding whitespace. -/
theorem dropCountryCodeL_good_word (w : List Char)
    (hgood : ∀ c ∈ w, isPyWs c = false) : dropCountryCodeL w = w := by
  rw [dropCountryCodeL.eq_def]
  rcases hwr : w.reverse with _ | ⟨c1, t1⟩
  · rfl
  · rcases t1 with _ | ⟨c2, t2⟩
    · rfl
    · rcases t2 with _ | ⟨c3, t3⟩
      · rfl
      · have hc3 : c3 ∈ w := by
          rw [← List.mem_reverse, hwr]
          simp
        simp only []
        rw [if_neg]
        simp [hgood c3 hc3]

/-- A country-code word has exactly two characters. -/
theorem isCountryCodeWord_length (w : List Char) (h : isCountryCodeWord w = true) :
    w.length = 2 := by
  rcases w with _ | ⟨a, _ | ⟨b, _ | ⟨c, t⟩⟩⟩ <;> simp [isCountryCodeWord] at h ⊢

/-- On a join of good words, the regex-shaped suffix removal is exactly:
drop a final two-uppercase-letter word when another word precedes it. -/
theorem dropCountryCodeL_joinWords (ws : List (List Char))
    (hgood : ∀ w ∈ ws, w ≠ [] ∧ ∀ c ∈ w, isPyWs c = false) :
    dropCountryCodeL (joinWords ws) = joinWords (dropLastCountryWord ws) := by
  rcases hrev : ws.reverse with _ | ⟨w, vsr⟩
  · have hws : ws = [] := by
      have h2 := congrArg List.reverse hrev
      simpa using h2
    subst hws
    rfl
  · have hws : ws = vsr.reverse ++ [w] := by
      have h2 := congrArg List.reverse hrev
      simpa using h2
    have hgw := hgood w (by rw [hws]; simp)
    rcases hvsr : vsr with _ | ⟨v, vr⟩
    · have hws1 : ws = [w] := by
        rw [hws, hvsr]
        rfl
      subst hws1
      rw [show joinWords [w] = w from rfl, dropCountryCodeL_good_word w hgw.2,
        dropLastCountryWord.eq_def]
      simp [joinWords]
    · subst hvsr
      have hvs_ne : (v :: vr).reverse ≠ ([] : List (List Char)) := by simp
      have hgvs : ∀ x ∈ (v :: vr).reverse, x ≠ [] ∧ ∀ c ∈ x, isPyWs c = false := by
        intro x hx
        have hx2 : x ∈ vr ∨ x = v := by simpa using hx
        refine hgood x ?_
        rw [hws]
        simp
        rcases hx2 with hx2 | rfl
        · exact Or.inl hx2
        · exact Or.inr (Or.inl rfl)
      have hJne : joinWords (v :: vr).reverse ≠ [] := joinWords_ne_nil _ hvs_ne hgvs
      have hjoin : joinWords ws = joinWords (v :: vr).reverse ++ ' ' :: w := by
        rw [hws]
        exact joinWords_append_last _ w hvs_ne
      have hrevj : (joinWords ws).reverse
          = w.reverse ++ ' ' :: (joinWords (v :: vr).reverse).reverse := by
        rw [hjoin, List.reverse_append]
        simp
      have hdropJ : (joinWords (v :: vr).reverse).reverse.dropWhile isPyWs
          = (joinWords (v :: vr).reverse).reverse := by
        apply dropWhile_of_head_not
        intro c hc
        rw [List.head?_reverse] at hc
        exact joinWords_getLast?_not_ws _ hgvs c hc
      have hRHS : dropLastCountryWord ws
          = if isCountryCodeWord w then (v :: vr).reverse else ws := by
        rw [dropLastCountryWord.eq_def, hrev]
      rw [hRHS]
      rcases hwr : w.reverse with _ | ⟨x1, t1⟩
      · exact absurd (by simpa using congrArg List.reverse hwr) hgw.1
      · rcases t1 with _ | ⟨x2, t2⟩
        · have hw1 : w = [x1] := by
            have h2 := congrArg List.reverse hwr
            simpa using h2
          rcases hj : (joinWords (v :: vr).reverse).reverse with _ | ⟨j1, j2⟩
          · exact absurd (by simpa using congrArg List.reverse hj) hJne
          · rw [dropCountryCodeL.eq_def, hrevj, hwr, hj]
            simp only [List.cons_append, List.nil_append]
            rw [if_neg (by simp [show isUpperC ' ' = false by decide])]
            rw [if_neg (by rw [hw1]; simp [isCountryCodeWord])]
        · rcases t2 with _ | ⟨x3, t3⟩
          · have hw2 : w = [x2, x1] := by
              have h2 := congrArg List.reverse hwr
              simpa using h2
            rw [dropCountryCodeL.eq_def, hrevj, hwr]
            simp only [List.cons_append, List.nil_append]
            by_cases hcc : isCountryCodeWord w = true
            · have hup : isUpperC x2 = true ∧ isUpperC x1 = true := by
                rw [hw2] at hcc
                simpa [isCountryCodeWord] using hcc
              rw [if_pos (by simp [hup.1, hup.2, show isPyWs ' ' = true by decide])]
              rw [List.dropWhile_cons, if_pos (by simp [show isPyWs ' ' = true by decide]),
                hdropJ, List.reverse_reverse, if_pos hcc]
            · have hccf : isCountryCodeWord w = false := by simpa using hcc
              have hccf2 : (isUpperC x2 && isUpperC x1) = false := by
                rw [hw2] at hccf
                exact hccf
              have hupf : (isUpperC x1 && isUpperC x2) = false := by
                rw [Bool.and_comm]
                exact hccf2
              rw [if_neg (by simp [hupf])]
              rw [if_neg (by simp [hccf])]
          · have hx3 : x3 ∈ w := by
              rw [← List.mem_reverse, hwr]
              simp
            have hlen : w.length = t3.length + 3 := by
              have h2 := List.length_reverse w
              rw [hwr] at h2
              simp at h2
              omega
            have hccf : isCountryCodeWord w = false := by
              cases hcw : isCountryCodeWord w
              · rfl
              · have h3 := isCountryCodeWord_length w hcw
                omega
            rw [dropCountryCodeL.eq_def, hrevj, hwr]
            simp only [List.cons_append]
            rw [if_neg (by simp [hgw.2 x3 hx3])]
            rw [if_neg (by simp [hccf])]

/-- C9 (amended): the description normaliser returns, as its cleaned
copy, the whitespace-separated words of the input joined by single spaces
with a final two-uppercase-letter country-code token dropped when at
least one word precedes it; and, as its raw copy, the input with leading
and trailing whitespace stripped — not the verbatim input (see the
counterexample). -/
theorem normalise_description_spec (s : String) :
    normalise_description s
      = (⟨joinWords (dropLastCountryWord (wordsOf s.toList))⟩, ⟨stripWsL s.toList⟩) := by
  have htrail : ∀ c, (stripWsL s.toList).getLast? = some c → isPyWs c = false :=
    fun c hc => stripWsL_last_not_ws s.toList c hc
  have hhead : headIsWs (stripWsL s.data) = false := by
    rcases hh : (stripWsL s.data).head? with _ | c
    · rw [headIsWs.eq_def, hh]
    · rw [headIsWs.eq_def, hh]
      exact stripWsL_head_not_ws s.toList c hh
  have hmain : dropCountryCodeL (collapseWsL (stripWsL s.toList))
      = joinWords (dropLastCountryWord (wordsOf s.toList)) := by
    rw [collapseWsL_eq_joinWords (stripWsL s.toList) htrail,
      if_neg (by simp [hhead]), wordsOf_stripWsL]
    exact dropCountryCodeL_joinWords (wordsOf s.toList) (wordsOf_good s.toList)
  unfold normalise_description normaliseDescriptionL
  simp only []
  rw [hmain]

/-! ### C8 — scoping of the post-ingestion reclassification -/

/-- Counterexample to C8 as stated: the pipeline does not invoke the Rule
Engine over the ingested statement's transactions only — it calls the
system-wide `reapply_all`.  Ingesting statement 1 with zero rows while
statement 2 owns a transaction and one rule exists makes the engine
process statement 2's transaction, where the defective sort key raises
and statement 1 ends `failed`; under the scoped invocation the spec
describes, the same ingestion ends `processed`. -/
theorem queue_parse_scoping_counterexample :
    findStmt (queue_parse dbTwoStatements 1 (.ok [])) 1
        = some { stmtProcessing with status := "failed", error_message := some nameErrorMsg }
      ∧ findStmt (queueParseScopedSpec dbTwoStatements 1 (.ok [])) 1
        = some { stmtProcessing with status := "processed", error_message := none } := by
  exact ⟨by decide, by decide⟩

end MgmtAcct
